import Mathlib

/-!
Shallow embedding of the hms backend rewrite scripts
(`add-returns.py`, `fix-returns.py`, `fix-return-types.py`,
`fix-route-types.py`, `remove-return-types.py`).

Lines are modelled as `List Char`; a file is a `List (List Char)`.
Python string operations (`strip`, `lstrip`, `in`, `startswith`,
`endswith`, `replace`, literal `re.sub`) are modelled directly on
character lists.
-/

namespace Hms

/-- The ASCII characters Python's `str.strip` / `str.lstrip` treat as
whitespace. -/
def isWS (c : Char) : Bool :=
  c == ' ' || c == '\t' || c == '\n' || c == '\r' || c == '\x0b' || c == '\x0c'

/-- View a Lean string literal as a character list. -/
def strL (s : String) : List Char := s.toList

/-- Python `s.lstrip()`. -/
def lstrip (s : List Char) : List Char := s.dropWhile isWS

/-- Python `s.rstrip()`. -/
def rstrip (s : List Char) : List Char := (s.reverse.dropWhile isWS).reverse

/-- Python `s.strip()`. -/
def strip (s : List Char) : List Char := rstrip (lstrip s)

/-- Python `len(line) - len(line.lstrip())`: the leading-whitespace count the
scripts use as the indentation of a line. -/
def indentOf (s : List Char) : Nat := s.length - (lstrip s).length

/-- Count of leading space characters proper. This follows the spec's words
("leading-space count", "count of leading space characters"); compare
`indentOf`, which is what the code computes (it also counts tabs). -/
def specLeadingSpaceCount (s : List Char) : Nat :=
  (s.takeWhile (fun c => c == ' ')).length

/-- Python substring containment `pat in s`. -/
def containsSub (s pat : List Char) : Bool :=
  match s with
  | [] => pat.isEmpty
  | c :: rest => pat.isPrefixOf (c :: rest) || containsSub rest pat

/-- Python `s.replace(pat, rep)`, which is also the semantics of `re.sub`
with a fully literal pattern: scan left to right, replace each
non-overlapping occurrence, continue after the replaced text. -/
def replaceSub (pat rep : List Char) : List Char → List Char
  | [] => []
  | c :: rest =>
    if pat.isPrefixOf (c :: rest) ∧ pat ≠ [] then
      rep ++ replaceSub pat rep (rest.drop (pat.length - 1))
    else
      c :: replaceSub pat rep rest
termination_by s => s.length
decreasing_by
  all_goals simp [List.length_drop]
  omega

/-- The per-line test of `add-returns.py` `fix_file`:
`('res.json(' in line or 'res.status(' in line and '.json(' in line)
 and not stripped.startswith('return') and stripped.endswith(');')`
(Python precedence: `A or (B and C)`). -/
def matchesAdd (line : List Char) : Bool :=
  (containsSub line (strL "res.json(")
      || (containsSub line (strL "res.status(") && containsSub line (strL ".json(")))
    && !(strL "return").isPrefixOf (strip line)
    && (strL ");").isSuffixOf (strip line)

/-- The inserted line `' ' * indent + 'return;\n'` of `add-returns.py` and
`fix-returns.py` (both read whole lines with their newline). -/
def mkRet (line : List Char) : List Char :=
  List.replicate (indentOf line) ' ' ++ strL "return;\n"

/-- The inserted line `' ' * indent + 'return;'` of `fix-return-types.py`
(which splits the content on newlines first). -/
def mkRetNoNl (line : List Char) : List Char :=
  List.replicate (indentOf line) ' ' ++ strL "return;"

/-- The line loop of `add-returns.py` `fix_file`: copy each line, and after a
line passing `matchesAdd` also emit the `return;` line. -/
def addReturnsGo : List (List Char) → List (List Char)
  | [] => []
  | l :: rest =>
    if matchesAdd l then l :: mkRet l :: addReturnsGo rest
    else l :: addReturnsGo rest

/-- The `changes` counter of `add-returns.py` `fix_file`: incremented exactly
once per line passing `matchesAdd`. -/
def addReturnsChanges (lines : List (List Char)) : Nat :=
  lines.countP matchesAdd

/-- `add-returns.py` `fix_file`: the new line buffer, together with whether a
write-back occurs (the file is rewritten, and True returned, iff
`changes > 0`). -/
def addReturnsFixFile (lines : List (List Char)) : List (List Char) × Bool :=
  (addReturnsGo lines, decide (0 < addReturnsChanges lines))

/-- One hinted line of `fix-returns.py` `fix_file` (`line_num` is 1-based, as
in the Vercel build-log table; the script's hints are all ≥ 1):
if the 0-based index is in range and the line contains `res.json(` or
`res.status(` and its stripped text does not start with `return` and the next
line exists and does not contain `return;`, insert the `return;` line right
after it. -/
def fixReturnsStep (lineNum : Nat) (lines : List (List Char)) : List (List Char) :=
  let idx := lineNum - 1
  if idx < lines.length then
    let line := lines.getD idx []
    if containsSub line (strL "res.json(") || containsSub line (strL "res.status(") then
      if !(strL "return").isPrefixOf (strip line) then
        if idx + 1 < lines.length ∧ containsSub (lines.getD (idx + 1) []) (strL "return;") = false then
          lines.take (idx + 1) ++ mkRet line :: lines.drop (idx + 1)
        else lines
      else lines
    else lines
  else lines

/-- Insert into a descending list, keeping it descending. -/
def insertDesc (n : Nat) : List Nat → List Nat
  | [] => [n]
  | m :: ms => if m ≤ n then n :: m :: ms else m :: insertDesc n ms

/-- Python `sorted(line_numbers, reverse=True)`. -/
def sortDesc (l : List Nat) : List Nat := l.foldr insertDesc []

/-- The hint loop of `fix-returns.py` `fix_file`: process the hinted line
numbers in descending order. -/
def fixReturnsFile (hints : List Nat) (lines : List (List Char)) : List (List Char) :=
  (sortDesc hints).foldl (fun ls n => fixReturnsStep n ls) lines

/-- `fix-returns.py` `fix_file`: the new line buffer and whether a write-back
occurs. The script reopens the file for writing unconditionally after the
loop (and returns True unconditionally on the non-exception path). -/
def fixReturnsFixFile (hints : List Nat) (lines : List (List Char)) : List (List Char) × Bool :=
  (fixReturnsFile hints lines, true)

/-- The per-line test of `fix-return-types.py` `fix_route_handlers`:
`'return res.' in line and ('.json(' in line or '.status(' in line)`. -/
def matchesStrip (line : List Char) : Bool :=
  containsSub line (strL "return res.")
    && (containsSub line (strL ".json(") || containsSub line (strL ".status("))

/-- `line.replace('return res.', 'res.')` of `fix-return-types.py`. -/
def stripReturn (line : List Char) : List Char :=
  replaceSub (strL "return res.") (strL "res.") line

/-- The next-line test of `fix-return-types.py` deciding whether to insert a
bare `return;` after a rewritten line:
`i + 1 < len(lines)` and then
`next_line.startswith('}') or (next_line and not next_line.startswith('//'))`
on the stripped next line. -/
def insertCond : List (List Char) → Bool
  | [] => false
  | next :: _ =>
    (strL "\x7d").isPrefixOf (strip next)
      || (!(strip next).isEmpty && !(strL "//").isPrefixOf (strip next))

/-- The line loop of `fix-return-types.py` `fix_route_handlers` (the lines
come from `content.split('\n')`, so they carry no newline characters). -/
def fixReturnTypesGo : List (List Char) → List (List Char)
  | [] => []
  | l :: rest =>
    if matchesStrip l then
      if insertCond rest then stripReturn l :: mkRetNoNl l :: fixReturnTypesGo rest
      else stripReturn l :: fixReturnTypesGo rest
    else l :: fixReturnTypesGo rest

/-- The bare async handler signature of `fix-route-types.py` (regex with only
escaped-literal metacharacters). -/
def handlerBare : List Char := strL "async (req: Request, res: Response) =>"

/-- The annotated handler signature used as the replacement by
`fix-route-types.py` and as the pattern by `remove-return-types.py`. -/
def handlerVoid : List Char := strL "async (req: Request, res: Response): Promise<void> =>"

/-- `fix-route-types.py`: add the void-promise return annotation everywhere. -/
def addAnnot (content : List Char) : List Char :=
  replaceSub handlerBare handlerVoid content

/-- `remove-return-types.py` (and `pattern1` of `fix-return-types.py`):
remove the void-promise return annotation everywhere. -/
def removeAnnot (content : List Char) : List Char :=
  replaceSub handlerVoid handlerBare content

/-- `fix-route-types.py` `fix_route_handlers`: new content and whether a
write-back occurs (`new_content != content`). -/
def fixRouteFixFile (content : List Char) : List Char × Bool :=
  (addAnnot content, decide (addAnnot content ≠ content))

/-- `remove-return-types.py` `fix_file`: new content and whether a write-back
occurs (`new_content != content`). -/
def removeFixFile (content : List Char) : List Char × Bool :=
  (removeAnnot content, decide (removeAnnot content ≠ content))

/-- A line is a bare exit statement iff its stripped text is exactly
`return;`. -/
def isBareRet (l : List Char) : Bool := strip l == strL "return;"

/-- The filesystem seen by a batch run: an association list from path to line
buffer. A path absent from the list stands for a file whose open raises
(missing/unreadable). -/
abbrev FS := List (String × List (List Char))

/-- Write back to an existing path (the scripts only write a file they have
just successfully read). -/
def fsWrite (fs : FS) (p : String) (v : List (List Char)) : FS :=
  fs.map (fun kv => if kv.1 = p then (p, v) else kv)

/-- One console status line of `add-returns.py`. -/
inductive RLog where
  | err (p : String)
  | fixedN (p : String) (n : Nat)
  | noChange (p : String)
deriving DecidableEq

/-- `add-returns.py` `fix_file` run against the filesystem: a failing open is
caught by the `except` block and reported as an error log for that file
only; otherwise the buffer is rewritten and written back iff `changes > 0`. -/
def addReturnsProcess (fs : FS) (p : String) : FS × RLog :=
  match fs.lookup p with
  | none => (fs, RLog.err p)
  | some lines =>
    if 0 < addReturnsChanges lines then
      (fsWrite fs p (addReturnsGo lines), RLog.fixedN p (addReturnsChanges lines))
    else
      (fs, RLog.noChange p)

/-- The `main` loop of `add-returns.py`: process the files in order, each one
isolated by its own try/except, collecting one status line per file. -/
def addReturnsRun (fs : FS) : List String → FS × List RLog
  | [] => (fs, [])
  | p :: ps =>
    let r := addReturnsProcess fs p
    let rest := addReturnsRun r.1 ps
    (rest.1, r.2 :: rest.2)

/-- `add-returns.py` `main`: the run plus the process exit status, which is 0
because no exception escapes the per-file handlers and `sys.exit` is never
called. -/
def addReturnsMain (fs : FS) (files : List String) : (FS × List RLog) × Nat :=
  (addReturnsRun fs files, 0)

/-! ## Helper lemmas -/

theorem lstrip_replicate_append (n : Nat) (u : List Char) :
    lstrip (List.replicate n ' ' ++ u) = lstrip u := by
  induction n with
  | zero => simp [lstrip]
  | succ k ih =>
    simp only [List.replicate_succ, List.cons_append, lstrip, List.dropWhile_cons]
    simp only [isWS]
    simpa using ih

theorem lstrip_mkRet (l : List Char) : lstrip (mkRet l) = strL "return;\n" := by
  unfold mkRet
  rw [lstrip_replicate_append]
  rfl

theorem lstrip_mkRetNoNl (l : List Char) : lstrip (mkRetNoNl l) = strL "return;" := by
  unfold mkRetNoNl
  rw [lstrip_replicate_append]
  rfl

theorem strip_mkRet (l : List Char) : strip (mkRet l) = strL "return;" := by
  unfold strip
  rw [lstrip_mkRet]
  rfl

theorem strip_mkRetNoNl (l : List Char) : strip (mkRetNoNl l) = strL "return;" := by
  unfold strip
  rw [lstrip_mkRetNoNl]
  rfl

theorem isBareRet_mkRet (l : List Char) : isBareRet (mkRet l) = true := by
  simp [isBareRet, strip_mkRet]

theorem addReturnsGo_append (xs ys : List (List Char)) :
    addReturnsGo (xs ++ ys) = addReturnsGo xs ++ addReturnsGo ys := by
  induction xs with
  | nil => rfl
  | cons l rest ih =>
    by_cases h : matchesAdd l = true
    · simp [addReturnsGo, h, ih]
    · simp [addReturnsGo, h, ih]

theorem addReturnsGo_headq (xs : List (List Char)) :
    (addReturnsGo xs).head? = xs.head? := by
  cases xs with
  | nil => rfl
  | cons l rest => by_cases h : matchesAdd l = true <;> simp [addReturnsGo, h]

theorem addReturnsGo_length (lines : List (List Char)) :
    (addReturnsGo lines).length = lines.length + addReturnsChanges lines := by
  induction lines with
  | nil => rfl
  | cons l rest ih =>
    by_cases h : matchesAdd l = true <;>
      simp [addReturnsGo, addReturnsChanges, List.countP_cons, h] <;>
      simp [addReturnsChanges] at ih <;> omega

theorem addReturnsGo_of_changes_zero (lines : List (List Char))
    (h : addReturnsChanges lines = 0) : addReturnsGo lines = lines := by
  induction lines with
  | nil => rfl
  | cons l rest ih =>
    simp only [addReturnsChanges, List.countP_cons] at h
    by_cases hm : matchesAdd l = true
    · simp [hm] at h
    · simp only [hm, if_neg] at h
      simp [addReturnsGo, hm, ih (by simpa [addReturnsChanges] using h)]

theorem indentOf_mkRet (l : List Char) : indentOf (mkRet l) = indentOf l := by
  have h1 : (mkRet l).length = indentOf l + 8 := by
    simp [mkRet, strL]
  rw [indentOf, lstrip_mkRet, h1, show (strL "return;\n").length = 8 from rfl]
  omega

theorem indentOf_mkRetNoNl (l : List Char) : indentOf (mkRetNoNl l) = indentOf l := by
  have h1 : (mkRetNoNl l).length = indentOf l + 7 := by
    simp [mkRetNoNl, strL]
  rw [indentOf, lstrip_mkRetNoNl, h1, show (strL "return;").length = 7 from rfl]
  omega

theorem specCount_replicate_r (n : Nat) (u : List Char) :
    specLeadingSpaceCount (List.replicate n ' ' ++ 'r' :: u) = n := by
  simp [specLeadingSpaceCount]

theorem takeWhile_space_eq_takeWhile_ws (l : List Char)
    (h : (l.takeWhile isWS).all (fun c => c == ' ') = true) :
    l.takeWhile (fun c => c == ' ') = l.takeWhile isWS := by
  induction l with
  | nil => rfl
  | cons c rest ih =>
    rcases hw : isWS c with _ | _
    · have hc : (c == ' ') = false := by
        rcases hcs : c == ' ' with _ | _
        · rfl
        · have hws : isWS c = true := by simp [isWS, hcs]
          rw [hw] at hws
          simp at hws
      simp [List.takeWhile_cons, hc, hw]
    · rw [List.takeWhile_cons, if_pos hw] at h
      simp only [List.all_cons, Bool.and_eq_true] at h
      simp [List.takeWhile_cons, hw, h.1, ih h.2]

theorem indentOf_eq_takeWhile (l : List Char) :
    indentOf l = (l.takeWhile isWS).length := by
  have hcat := List.takeWhile_append_dropWhile (p := isWS) (l := l)
  have hlen : (l.takeWhile isWS).length + (l.dropWhile isWS).length = l.length := by
    rw [← List.length_append, hcat]
  simp only [indentOf, lstrip]
  omega

theorem isPrefixOf_head_ne {c₁ c₂ : Char} {t₁ t₂ s : List Char}
    (h : (c₁ :: t₁).isPrefixOf s = true) (hne : c₂ ≠ c₁) :
    (c₂ :: t₂).isPrefixOf s = false := by
  cases s with
  | nil => simp [List.isPrefixOf] at h
  | cons a u =>
    simp only [List.isPrefixOf, Bool.and_eq_true, beq_iff_eq] at h
    simp only [List.isPrefixOf, Bool.and_eq_false_iff]
    left
    simp [h.1 ▸ hne]

/-! ## C1 -/

/-- C1 counterexample: the full-scan insertion pass is not idempotent. On the
already-fixed file `  res.json(data);` / `  return;` (the output of its own
first run) the second run still counts a patch and inserts a duplicate
`return;`, so the output of the second run differs from the output of the
first. -/
theorem addReturns_rerun_not_noop :
    addReturnsChanges (addReturnsGo [strL "  res.json(data);\n"]) = 1
      ∧ addReturnsGo (addReturnsGo [strL "  res.json(data);\n"])
          ≠ addReturnsGo [strL "  res.json(data);\n"] := by decide

/-- C1 (amended): only the hint-driven pass (`fix-returns.py`) recognizes an
already-present trailing `return;` line: when the line after a hinted line
contains `return;`, the step leaves the buffer unchanged. The full-scan pass
(`add-returns.py`) performs no such check and re-inserts, so a second run of
the full pipeline is not a no-op (see the counterexample). -/
theorem hinted_pass_skips_existing_exit (n : Nat) (lines : List (List Char))
    (h1 : 1 ≤ n) (h2 : n < lines.length)
    (h3 : containsSub (lines.getD n []) (strL "return;") = true) :
    fixReturnsStep n lines = lines := by
  simp only [fixReturnsStep]
  split
  · split
    · split
      · rw [if_neg]
        rw [show n - 1 + 1 = n by omega]
        rintro ⟨h4, h5⟩
        rw [h3] at h5
        exact absurd h5 (by decide)
      · rfl
    · rfl
  · rfl

/-- Witness for `hinted_pass_skips_existing_exit` at a concrete already-fixed
two-line file. -/
theorem hinted_pass_skips_existing_exit_witness :
    fixReturnsStep 1 [strL "  res.json(data);\n", strL "  return;\n"]
      = [strL "  res.json(data);\n", strL "  return;\n"] :=
  hinted_pass_skips_existing_exit 1 _ (by decide) (by decide) (by decide)

/-! ## C2 -/

/-- C2 counterexample: a response-emitting line that IS already followed by a
bare `return;` gets another one inserted, so after one run two bare exit
lines follow it — refuting "never two or more, even if a `return;` line
already followed it in the input". -/
theorem addReturns_duplicate_exit :
    addReturnsGo [strL "  res.json(data);\n", strL "  return;\n"]
        = [strL "  res.json(data);\n", strL "  return;\n", strL "  return;\n"]
      ∧ isBareRet (strL "  return;\n") = true := by decide

/-- C2 (amended): for every line passing the insertion test of
`add-returns.py` whose following line is not a bare exit statement, one run
leaves it followed by exactly one bare `return;` line: the inserted line is a
bare exit, and the line after the inserted one is the original next line,
which is not a bare exit. (If a bare `return;` already follows, the pass
inserts a duplicate — see the counterexample.) -/
theorem addReturns_coverage (pre post : List (List Char)) (l : List Char)
    (hm : matchesAdd l = true)
    (hnext : ∀ nx, post.head? = some nx → isBareRet nx = false) :
    addReturnsGo (pre ++ l :: post)
        = addReturnsGo pre ++ l :: mkRet l :: addReturnsGo post
      ∧ isBareRet (mkRet l) = true
      ∧ (addReturnsGo post).head? = post.head?
      ∧ ∀ nx, (addReturnsGo post).head? = some nx → isBareRet nx = false := by
  refine ⟨?_, isBareRet_mkRet l, addReturnsGo_headq post, ?_⟩
  · rw [addReturnsGo_append]
    simp [addReturnsGo, hm]
  · intro nx h
    rw [addReturnsGo_headq] at h
    exact hnext nx h

/-- Witness for `addReturns_coverage` at a concrete one-site file. -/
theorem addReturns_coverage_witness :
    addReturnsGo ([] ++ strL "  res.json(data);\n" :: [strL "end\n"])
        = addReturnsGo []
            ++ strL "  res.json(data);\n"
              :: mkRet (strL "  res.json(data);\n") :: addReturnsGo [strL "end\n"]
      ∧ isBareRet (mkRet (strL "  res.json(data);\n")) = true := by
  have h := addReturns_coverage [] [strL "end\n"] (strL "  res.json(data);\n")
    (by decide) (fun nx hx => by simp at hx; subst hx; decide)
  exact ⟨h.1, h.2.1⟩

/-! ## C4 -/

/-- C4 counterexample: the hint-driven pass (`fix-returns.py`) writes the file
back unconditionally. On a one-line file with a hint at a non-matching line
the content is unchanged yet a write still occurs (and True is returned). -/
theorem hintedPass_writes_unchanged :
    (fixReturnsFixFile [1] [strL "x\n"]).1 = [strL "x\n"]
      ∧ (fixReturnsFixFile [1] [strL "x\n"]).2 = true := by decide

/-- C4 (amended): the full-scan insertion pass and both signature passes
write back if and only if the patched content differs from the original
(and their returned boolean reports exactly that); the hint-driven pass is
the exception (see the counterexample). -/
theorem writeback_iff_changed (lines : List (List Char)) (content : List Char) :
    ((addReturnsFixFile lines).2 = true ↔ (addReturnsFixFile lines).1 ≠ lines)
      ∧ ((fixRouteFixFile content).2 = true ↔ (fixRouteFixFile content).1 ≠ content)
      ∧ ((removeFixFile content).2 = true ↔ (removeFixFile content).1 ≠ content) := by
  refine ⟨?_, by simp [fixRouteFixFile], by simp [removeFixFile]⟩
  simp only [addReturnsFixFile, decide_eq_true_eq]
  constructor
  · intro hpos heq
    have hlen := addReturnsGo_length lines
    rw [heq] at hlen
    omega
  · intro hne
    rcases Nat.eq_zero_or_pos (addReturnsChanges lines) with h0 | hp
    · exact absurd (addReturnsGo_of_changes_zero lines h0) hne
    · exact hp

/-! ## C5 -/

/-- C5 counterexample: the Example-4 multi-line call is returned unchanged by
the full-scan pass — no bare `return;` is appended after the closing line
(nor anywhere else). -/
theorem multiline_call_unchanged :
    addReturnsGo
        [strL "  res.status(500).json(\x7b\n", strL "    error: msg\n", strL "  \x7d);\n"]
        = [strL "  res.status(500).json(\x7b\n", strL "    error: msg\n", strL "  \x7d);\n"]
      ∧ List.all
          [strL "  res.status(500).json(\x7b\n", strL "    error: msg\n", strL "  \x7d);\n"]
          (fun l => !isBareRet l) = true := by decide

/-- C5 (amended): there is no statement merger — a line whose stripped text
does not end in `);` (such as the opening line of a multi-line call) never
passes the insertion test, and the pass copies it with nothing inserted
after it (a silent false negative). -/
theorem multiline_skipped (l : List Char)
    (h : (strL ");").isSuffixOf (strip l) = false) :
    matchesAdd l = false
      ∧ ∀ pre post, addReturnsGo (pre ++ l :: post)
          = addReturnsGo pre ++ l :: addReturnsGo post := by
  have hm : matchesAdd l = false := by
    simp [matchesAdd, h]
  refine ⟨hm, fun pre post => ?_⟩
  rw [addReturnsGo_append]
  simp [addReturnsGo, hm]

/-- Witness for `multiline_skipped` at the Example-4 opening line. -/
theorem multiline_skipped_witness :
    matchesAdd (strL "  res.status(500).json(\x7b\n") = false :=
  (multiline_skipped _ (by decide)).1

/-! ## C6 -/

/-- C6 counterexample: a comment line containing the `res.json(...);` shape
passes the insertion test and gets a patch anchored to it. -/
theorem comment_line_patched :
    matchesAdd (strL "  // res.json(data);\n") = true
      ∧ addReturnsGo [strL "  // res.json(data);\n"]
          = [strL "  // res.json(data);\n", strL "  return;\n"] := by decide

/-- C6 (amended): no pass excludes comment lines as anchors; the only
comment-awareness in the code is in `fix-return-types.py`, which suppresses
inserting the bare `return;` when the stripped NEXT line starts with `//`. -/
theorem no_insert_before_comment (l next : List Char) (rest : List (List Char))
    (hm : matchesStrip l = true)
    (hc : (strL "//").isPrefixOf (strip next) = true) :
    fixReturnTypesGo (l :: next :: rest)
      = stripReturn l :: fixReturnTypesGo (next :: rest) := by
  have h1 : (strL "\x7d").isPrefixOf (strip next) = false :=
    isPrefixOf_head_ne (show ('/' :: strL "/").isPrefixOf (strip next) = true from hc)
      (by decide)
  have hcond : insertCond (next :: rest) = false := by
    simp [insertCond, h1, hc]
  simp [fixReturnTypesGo, hm, hcond]

/-- Witness for `no_insert_before_comment` at a concrete two-line file. -/
theorem no_insert_before_comment_witness :
    fixReturnTypesGo [strL "  return res.json(x);", strL "  // done"]
      = stripReturn (strL "  return res.json(x);") :: fixReturnTypesGo [strL "  // done"] :=
  no_insert_before_comment _ _ [] (by decide) (by decide)

/-! ## C7 -/

/-- C7 counterexample: after a tab-indented site, the inserted line is
rendered with spaces, so its count of leading space characters (1) differs
from that of the line it follows (0). -/
theorem tab_indent_mismatch :
    addReturnsGo [strL "\tres.json(x);\n"] = [strL "\tres.json(x);\n", strL " return;\n"]
      ∧ specLeadingSpaceCount (strL " return;\n") = 1
      ∧ specLeadingSpaceCount (strL "\tres.json(x);\n") = 0 := by decide

/-- C7 (amended): every inserted exit line is rendered as
`indentOf line` spaces followed by `return;`, where `indentOf` is the code's
leading-whitespace count, so the leading-whitespace counts always agree; and
whenever the followed line is indented with spaces only, the leading-space
counts agree as well. -/
theorem inserted_indent_matches (l : List Char)
    (h : (l.takeWhile isWS).all (fun c => c == ' ') = true) :
    indentOf (mkRet l) = indentOf l
      ∧ specLeadingSpaceCount (mkRet l) = specLeadingSpaceCount l
      ∧ indentOf (mkRetNoNl l) = indentOf l
      ∧ specLeadingSpaceCount (mkRetNoNl l) = specLeadingSpaceCount l := by
  have hspec : specLeadingSpaceCount l = indentOf l := by
    rw [specLeadingSpaceCount, takeWhile_space_eq_takeWhile_ws l h, indentOf_eq_takeWhile]
  refine ⟨indentOf_mkRet l, ?_, indentOf_mkRetNoNl l, ?_⟩
  · rw [show mkRet l = List.replicate (indentOf l) ' ' ++ 'r' :: strL "eturn;\n" from rfl,
      specCount_replicate_r, hspec]
  · rw [show mkRetNoNl l = List.replicate (indentOf l) ' ' ++ 'r' :: strL "eturn;" from rfl,
      specCount_replicate_r, hspec]

/-- Witness for `inserted_indent_matches` at a concrete space-indented site. -/
theorem inserted_indent_matches_witness :
    indentOf (mkRet (strL "  res.json(data);\n")) = indentOf (strL "  res.json(data);\n")
      ∧ specLeadingSpaceCount (mkRet (strL "  res.json(data);\n"))
          = specLeadingSpaceCount (strL "  res.json(data);\n")
      ∧ indentOf (mkRetNoNl (strL "  res.json(data);\n")) = indentOf (strL "  res.json(data);\n")
      ∧ specLeadingSpaceCount (mkRetNoNl (strL "  res.json(data);\n"))
          = specLeadingSpaceCount (strL "  res.json(data);\n") :=
  inserted_indent_matches (strL "  res.json(data);\n") (by decide)

/-! ## C10 -/

/-- C10: the hint-driven pass never indexes out of range. A 1-based hint
greater than the file's line count is silently skipped, and when the hint
names the last line the look-ahead guard `idx + 1 < len(lines)` blocks the
insertion, so in both cases the buffer is returned unchanged and no
out-of-range access occurs (the model is a total function whose every index
is guarded exactly as in the code). -/
theorem hinted_pass_in_bounds (n : Nat) (lines : List (List Char))
    (h1 : 1 ≤ n) (h2 : lines.length ≤ n) :
    fixReturnsStep n lines = lines := by
  simp only [fixReturnsStep]
  split
  · split
    · split
      · rw [if_neg (fun hc => absurd hc.1 (by omega))]
      · rfl
    · rfl
  · rfl

/-- Witness for `hinted_pass_in_bounds`: a hint at the (matching) last line
of a one-line file inserts nothing. -/
theorem hinted_pass_in_bounds_witness :
    fixReturnsStep 1 [strL "  res.json(data);\n"] = [strL "  res.json(data);\n"] :=
  hinted_pass_in_bounds 1 _ (by decide) (by decide)

/-! ## Lemmas about `containsSub` and `replaceSub` -/

theorem containsSub_append_left (x u pat : List Char) (h : containsSub u pat = true) :
    containsSub (x ++ u) pat = true := by
  induction x with
  | nil => simpa using h
  | cons c x' ih =>
    simp only [List.cons_append, containsSub, Bool.or_eq_true]
    right
    exact ih

theorem containsSub_here (pat u : List Char) : containsSub (pat ++ u) pat = true := by
  cases pat with
  | nil => cases u <;> simp [containsSub, List.isPrefixOf]
  | cons p pt =>
    simp only [List.cons_append, containsSub, Bool.or_eq_true]
    left
    exact List.isPrefixOf_iff_prefix.mpr (List.prefix_append (p :: pt) u)

theorem containsSub_middle (a pat b : List Char) : containsSub (a ++ pat ++ b) pat = true := by
  rw [List.append_assoc]
  exact containsSub_append_left a _ pat (containsSub_here pat b)

/-- A prefix of `x ++ u` is comparable with `x`. -/
theorem prefixOf_append_cases {P x u : List Char}
    (h : P.isPrefixOf (x ++ u) = true) : P <+: x ∨ x <+: P :=
  List.prefix_or_prefix_of_prefix (List.isPrefixOf_iff_prefix.mp h) (List.prefix_append x u)

/-- Nothing is rewritten in a string with no occurrence of the pattern. -/
theorem replaceSub_of_no_occurrence {P R : List Char} (u : List Char)
    (h : containsSub u P = false) : replaceSub P R u = u := by
  induction u with
  | nil => simp [replaceSub]
  | cons c rest ih =>
    simp only [containsSub, Bool.or_eq_false_iff] at h
    rw [replaceSub, if_neg (fun hc => absurd hc.1 (by simp [h.1]))]
    rw [ih h.2]

/-- Rewriting past a block of spaces when the pattern starts with a
non-space character. -/
theorem replaceSub_cons_of_head_ne {p₀ c : Char} {pt rep : List Char} (u : List Char)
    (h : c ≠ p₀) :
    replaceSub (p₀ :: pt) rep (c :: u) = c :: replaceSub (p₀ :: pt) rep u := by
  rw [replaceSub, if_neg]
  rintro ⟨h1, -⟩
  simp only [List.isPrefixOf, Bool.and_eq_true, beq_iff_eq] at h1
  exact absurd h1.1.symm h

theorem replaceSub_spaces (p₀ : Char) (pt rep : List Char) (hp : p₀ ≠ ' ') :
    ∀ (n : Nat) (u : List Char),
      replaceSub (p₀ :: pt) rep (List.replicate n ' ' ++ u)
        = List.replicate n ' ' ++ replaceSub (p₀ :: pt) rep u := by
  intro n
  induction n with
  | zero => intro u; simp
  | succ k ih =>
    intro u
    simp only [List.replicate_succ, List.cons_append]
    rw [replaceSub_cons_of_head_ne _ (Ne.symm hp), ih]

/-- A match at the head is replaced and the scan continues after it. -/
theorem replaceSub_self_prefix {P rep : List Char} (hP : P ≠ []) (u : List Char) :
    replaceSub P rep (P ++ u) = rep ++ replaceSub P rep u := by
  obtain ⟨p₀, pt, rfl⟩ := List.exists_cons_of_ne_nil hP
  simp only [List.cons_append]
  rw [replaceSub, if_pos]
  · congr 1
    rw [show (p₀ :: pt).length - 1 = pt.length by simp]
    exact congrArg _ (List.drop_left pt u)
  · exact ⟨List.isPrefixOf_iff_prefix.mpr (List.prefix_append (p₀ :: pt) u), by simp⟩

/-- Structure of prefixes of a rewritten string: a prefix of the output is a
prefix of the input, unless it runs into emitted replacement text, in which
case some position of it carries the replacement's head character. -/
theorem prefix_of_replaceSub {P R : List Char} (hR : R ≠ []) :
    ∀ s Q, Q ≠ [] → Q.isPrefixOf (replaceSub P R s) = true →
      Q.isPrefixOf s = true ∨ ∃ m, m < Q.length ∧ (Q.drop m).head? = R.head? := by
  intro s
  induction s with
  | nil =>
    intro Q hQ h
    obtain ⟨q₀, Q', rfl⟩ := List.exists_cons_of_ne_nil hQ
    simp [replaceSub, List.isPrefixOf] at h
  | cons c rest ih =>
    intro Q hQ h
    by_cases hm : P.isPrefixOf (c :: rest) = true ∧ P ≠ []
    · rw [replaceSub, if_pos hm] at h
      right
      refine ⟨0, List.length_pos.mpr hQ, ?_⟩
      rw [List.drop_zero]
      rcases prefixOf_append_cases h with hqr | hrq
      · obtain ⟨t, ht⟩ := hqr
        obtain ⟨q₀, Q', rfl⟩ := List.exists_cons_of_ne_nil hQ
        obtain ⟨r₀, R', rfl⟩ := List.exists_cons_of_ne_nil hR
        rw [List.cons_append] at ht
        injection ht with h1 _
        simp [h1]
      · obtain ⟨t, ht⟩ := hrq
        obtain ⟨r₀, R', rfl⟩ := List.exists_cons_of_ne_nil hR
        rw [← ht]
        simp
    · rw [replaceSub, if_neg hm] at h
      obtain ⟨q₀, Q', rfl⟩ := List.exists_cons_of_ne_nil hQ
      simp only [List.isPrefixOf, Bool.and_eq_true, beq_iff_eq] at h
      obtain ⟨rfl, h2⟩ := h
      by_cases hQ' : Q' = []
      · subst hQ'
        left
        simp [List.isPrefixOf]
      · rcases ih Q' hQ' h2 with h3 | ⟨m, hm', hh⟩
        · left
          simp [List.isPrefixOf, h3]
        · right
          exact ⟨m + 1, by simpa using Nat.succ_lt_succ hm', by simpa using hh⟩

/-- No occurrence of the pattern survives inside emitted replacement text or
across its boundaries, provided no suffix of the replacement is
prefix-comparable with the pattern. -/
theorem containsSub_append_replacement {P : List Char} :
    ∀ (x T : List Char),
      (∀ k, k < x.length →
        (P.isPrefixOf (x.drop k) = false ∧ (x.drop k).isPrefixOf P = false)) →
      containsSub T P = false → containsSub (x ++ T) P = false := by
  intro x
  induction x with
  | nil => intro T _ hT; simpa using hT
  | cons c x' ih =>
    intro T hk hT
    simp only [List.cons_append, containsSub, Bool.or_eq_false_iff]
    constructor
    · rw [Bool.eq_false_iff]
      intro hp
      have h0 := hk 0 (Nat.succ_pos _)
      rw [List.drop_zero] at h0
      rcases prefixOf_append_cases (x := c :: x') (u := T) hp with hqr | hrq
      · rw [← List.isPrefixOf_iff_prefix] at hqr
        rw [h0.1] at hqr
        simp at hqr
      · rw [← List.isPrefixOf_iff_prefix] at hrq
        rw [h0.2] at hrq
        simp at hrq
    · refine ih T (fun k hk' => ?_) hT
      have := hk (k + 1) (Nat.succ_lt_succ hk')
      simpa using this

/-- Core lemma: after one rewrite the pattern occurs nowhere in the output,
given (i) no nonempty suffix of the replacement is prefix-comparable with the
pattern, (ii) the pattern's head character occurs in it only at position 0,
and (iii) the replacement starts with the same character as the pattern. -/
theorem replaceSub_no_occurrence {P R : List Char}
    (hP : P ≠ []) (hR : R ≠ [])
    (hBr : ∀ k, k < R.length →
      (P.isPrefixOf (R.drop k) = false ∧ (R.drop k).isPrefixOf P = false))
    (hHu : ∀ m, m < P.length → 0 < m → (P.drop m).head? ≠ P.head?)
    (hHd : R.head? = P.head?) :
    ∀ s, containsSub (replaceSub P R s) P = false := by
  have main : ∀ fuel s, s.length ≤ fuel → containsSub (replaceSub P R s) P = false := by
    intro fuel
    induction fuel with
    | zero =>
      intro s hs
      rw [List.length_eq_zero.mp (Nat.le_zero.mp hs)]
      simp [replaceSub, containsSub, hP]
    | succ k ih =>
      intro s hs
      match s with
      | [] => simp [replaceSub, containsSub, hP]
      | c :: rest =>
        by_cases hm : P.isPrefixOf (c :: rest) = true ∧ P ≠ []
        · rw [replaceSub, if_pos hm]
          refine containsSub_append_replacement R _ hBr (ih _ ?_)
          have hd : (rest.drop (P.length - 1)).length ≤ rest.length := by
            simp [List.length_drop]
          have hr : rest.length + 1 ≤ k + 1 := hs
          omega
        · rw [replaceSub, if_neg hm]
          simp only [containsSub, Bool.or_eq_false_iff]
          refine ⟨?_, ih rest (Nat.le_of_succ_le_succ hs)⟩
          rw [Bool.eq_false_iff]
          intro hp
          obtain ⟨p₀, P', rfl⟩ := List.exists_cons_of_ne_nil hP
          simp only [List.isPrefixOf, Bool.and_eq_true, beq_iff_eq] at hp
          obtain ⟨rfl, hp2⟩ := hp
          by_cases hP' : P' = []
          · subst hP'
            exact hm ⟨by simp [List.isPrefixOf], by simp⟩
          · rcases prefix_of_replaceSub hR rest P' hP' hp2 with h3 | ⟨m, hm', hh⟩
            · exact hm ⟨by simp [List.isPrefixOf, h3], by simp⟩
            · have hdrop : ((p₀ :: P').drop (m + 1)).head? = (p₀ :: P').head? := by
                rw [List.drop_succ_cons, hh, hHd]
              exact hHu (m + 1) (by simpa using Nat.succ_lt_succ hm') (Nat.succ_pos m) hdrop
  intro s
  exact main s.length s (Nat.le_refl _)

/-! ## C9 -/

/-- C9: each Signature Normalizer direction is idempotent. The substituted
text contains no further occurrence of the search pattern (both signature
literals start with their only `a`, so no new occurrence can straddle the
replacement's boundaries either), hence a second application of the same
direction rewrites nothing. -/
theorem signature_rewrite_idempotent (content : List Char) :
    addAnnot (addAnnot content) = addAnnot content
      ∧ removeAnnot (removeAnnot content) = removeAnnot content := by
  constructor
  · exact replaceSub_of_no_occurrence _
      (replaceSub_no_occurrence (by decide) (by decide) (by decide) (by decide) (by decide)
        content)
  · exact replaceSub_of_no_occurrence _
      (replaceSub_no_occurrence (by decide) (by decide) (by decide) (by decide) (by decide)
        content)

/-! ## C3 -/

theorem stripReturn_spaces (n : Nat) (u : List Char) :
    stripReturn (List.replicate n ' ' ++ u) = List.replicate n ' ' ++ stripReturn u :=
  replaceSub_spaces 'r' (strL "eturn res.") (strL "res.") (by decide) n u

theorem stripReturn_match (u : List Char) :
    stripReturn (strL "return res." ++ u) = strL "res." ++ stripReturn u :=
  replaceSub_self_prefix (by decide) u

theorem stripReturn_untouched (u : List Char)
    (h : containsSub u (strL "return res.") = false) : stripReturn u = u :=
  replaceSub_of_no_occurrence u h

/-- C3 counterexample: a `return res.json(...)` line whose next line already
is a bare `return;` still gets a second `return;` inserted after the
rewritten line — the insertion is NOT conditioned on the absence of a
trailing bare exit. -/
theorem stripPass_inserts_despite_exit :
    fixReturnTypesGo [strL "  return res.json(x);", strL "  return;"]
        = [strL "  res.json(x);", strL "  return;", strL "  return;"]
      ∧ isBareRet (strL "  return;") = true := by
  refine ⟨?_, by decide⟩
  have h1 : matchesStrip (strL "  return res.json(x);") = true := by decide
  have h2 : insertCond [strL "  return;"] = true := by decide
  have h3 : matchesStrip (strL "  return;") = false := by decide
  have h4 : mkRetNoNl (strL "  return res.json(x);") = strL "  return;" := by decide
  have hs : stripReturn (strL "  return res.json(x);") = strL "  res.json(x);" := by
    rw [show strL "  return res.json(x);"
        = List.replicate 2 ' ' ++ (strL "return res." ++ strL "json(x);") by decide,
      stripReturn_spaces, stripReturn_match, stripReturn_untouched _ (by decide)]
    decide
  simp [fixReturnTypesGo, h1, h2, h3, h4, hs]

/-- Scanning hits the first occurrence of a pattern without self-overlap:
with no occurrence of `P` inside `a`, the rewrite of `a ++ P ++ t` keeps
`a`, replaces that occurrence, and continues on `t`. -/
theorem replaceSub_first_occurrence {P R : List Char} (hP : P ≠ [])
    (hself : ∀ j, j < P.length → 0 < j → (P.drop j).isPrefixOf P = false) :
    ∀ a t, containsSub a P = false →
      replaceSub P R (a ++ P ++ t) = a ++ R ++ replaceSub P R t := by
  intro a
  induction a with
  | nil =>
    intro t _
    simpa using replaceSub_self_prefix hP t
  | cons c a' ih =>
    intro t ha
    simp only [containsSub, Bool.or_eq_false_iff] at ha
    obtain ⟨ha1, ha2⟩ := ha
    have hform : (c :: a') ++ P ++ t = c :: (a' ++ P ++ t) := by simp
    rw [hform, replaceSub, if_neg ?hno, ih t ha2]
    · simp
    case hno =>
      rintro ⟨hpre, -⟩
      rw [← hform, List.append_assoc] at hpre
      have hpre' : P <+: (c :: a') ++ (P ++ t) := List.isPrefixOf_iff_prefix.mp hpre
      rcases prefixOf_append_cases (x := c :: a') (u := P ++ t) hpre with h1 | h2
      · rw [← List.isPrefixOf_iff_prefix, ha1] at h1
        simp at h1
      · obtain ⟨r, hr⟩ := h2
        by_cases hrn : r = []
        · subst hrn
          rw [List.append_nil] at hr
          rw [hr] at ha1
          have hrefl : P.isPrefixOf P = true :=
            List.isPrefixOf_iff_prefix.mpr List.prefix_rfl
          rw [ha1] at hrefl
          simp at hrefl
        · have hd : P.drop (c :: a').length = r := by
            rw [← hr]
            exact List.drop_left (c :: a') r
          have hPlen : P.length = (c :: a').length + r.length := by
            rw [← hr, List.length_append]
          have hrt : r <+: P ++ t := by
            nth_rewrite 1 [← hr] at hpre'
            exact (List.prefix_append_right_inj (c :: a')).mp hpre'
          have hrP : r <+: P := by
            rcases List.prefix_or_prefix_of_prefix hrt (List.prefix_append P t)
              with h | h
            · exact h
            · exfalso
              have hlen := List.IsPrefix.length_le h
              have hcpos : 0 < (c :: a').length := Nat.succ_pos _
              omega
          have hjlt : (c :: a').length < P.length := by
            have hrpos : 0 < r.length := List.length_pos.mpr hrn
            omega
          have hj := hself (c :: a').length hjlt (Nat.succ_pos _)
          rw [hd] at hj
          have htrue : r.isPrefixOf P = true := List.isPrefixOf_iff_prefix.mpr hrP
          rw [hj] at htrue
          simp at htrue

/-- C3 (amended): for every line containing `return res.` together with
`.json(` or `.status(` (the code's test, whatever the indentation and
wherever the occurrences sit), the pass emits the line rewritten by
`stripReturn` — which, at every first occurrence `a ++ "return res." ++ t`
of the pattern, keeps `a`, replaces the occurrence by `res.`, and continues
rewriting `t` — and inserts the bare `return;` line after it if and only if
a next line exists whose stripped text starts with `}` or is nonempty and
does not start with `//`, irrespective of whether that next line is already
a bare exit (see the counterexample). -/
theorem stripPass_characterization (l : List Char) (rest : List (List Char))
    (hm : matchesStrip l = true) :
    fixReturnTypesGo (l :: rest)
        = stripReturn l
          :: (if insertCond rest = true then mkRetNoNl l :: fixReturnTypesGo rest
              else fixReturnTypesGo rest)
      ∧ ∀ a t, l = a ++ strL "return res." ++ t →
          containsSub a (strL "return res.") = false →
          stripReturn l = a ++ strL "res." ++ stripReturn t := by
  constructor
  · simp only [fixReturnTypesGo, hm, if_true]
    rcases hic : insertCond rest with _ | _ <;> simp [hic]
  · intro a t hl ha
    rw [hl]
    exact replaceSub_first_occurrence (by decide) (by decide) a t ha

/-- Witness for `stripPass_characterization` at a concrete two-line file
whose first line is a `.status(`-only site. -/
theorem stripPass_characterization_witness :
    fixReturnTypesGo [strL "  return res.status(404).end();", strL "\x7d"]
        = stripReturn (strL "  return res.status(404).end();")
          :: (if insertCond [strL "\x7d"] = true
              then mkRetNoNl (strL "  return res.status(404).end();")
                :: fixReturnTypesGo [strL "\x7d"]
              else fixReturnTypesGo [strL "\x7d"])
      ∧ stripReturn (strL "  return res.status(404).end();")
          = strL "  " ++ strL "res." ++ stripReturn (strL "status(404).end();") := by
  have h := stripPass_characterization (strL "  return res.status(404).end();")
    [strL "\x7d"] (by decide)
  exact ⟨h.1, h.2 (strL "  ") (strL "status(404).end();") (by decide) (by decide)⟩

/-! ## C8 -/

theorem lookup_fsWrite_none (fs : FS) (p q : String) (v : List (List Char))
    (h : fs.lookup q = none) : (fsWrite fs p v).lookup q = none := by
  induction fs with
  | nil => rfl
  | cons kv fs' ih =>
    rcases kv with ⟨k, w⟩
    rcases hqk : (q == k) with _ | _
    · have h' : fs'.lookup q = none := by
        simpa [List.lookup, hqk] using h
      by_cases hkp : k = p
      · subst hkp
        show List.lookup q ((if k = k then (k, v) else (k, w)) :: fsWrite fs' k v) = none
        rw [if_pos rfl]
        simp only [List.lookup, hqk]
        exact ih h'
      · show List.lookup q ((if k = p then (p, v) else (k, w)) :: fsWrite fs' p v) = none
        rw [if_neg hkp]
        simp only [List.lookup, hqk]
        exact ih h'
    · exfalso
      simp [List.lookup, hqk] at h

theorem addReturnsRun_preserves_missing (files : List String) :
    ∀ (fs : FS) (q : String), fs.lookup q = none →
      ((addReturnsRun fs files).1).lookup q = none := by
  induction files with
  | nil => intro fs q h; exact h
  | cons p ps ih =>
    intro fs q h
    simp only [addReturnsRun]
    apply ih
    simp only [addReturnsProcess]
    rcases hl : fs.lookup p with _ | lines
    · simpa using h
    · by_cases hc : 0 < addReturnsChanges lines
      · simp only [if_pos hc]
        exact lookup_fsWrite_none fs p q _ h
      · simpa [if_neg hc] using h

theorem addReturnsRun_append (a b : List String) :
    ∀ fs : FS,
      addReturnsRun fs (a ++ b)
        = ((addReturnsRun (addReturnsRun fs a).1 b).1,
            (addReturnsRun fs a).2 ++ (addReturnsRun (addReturnsRun fs a).1 b).2) := by
  induction a with
  | nil => intro fs; simp [addReturnsRun]
  | cons p ps ih =>
    intro fs
    simp only [List.cons_append, addReturnsRun]
    rw [show ps.append b = ps ++ b from rfl, ih]

/-- C8: a per-file failure is isolated. If `bad` is a path whose open fails
(not present in the filesystem), then running the batch on
`files₁ ++ [bad] ++ files₂` produces exactly the same final filesystem as
running it on `files₁ ++ files₂`; the failure surfaces only as one error log
line in place, every other file's log being unchanged; and the process exit
status of `main` is 0 regardless. -/
theorem per_file_isolation (fs : FS) (files₁ files₂ : List String) (bad : String)
    (h : fs.lookup bad = none) :
    (addReturnsRun fs (files₁ ++ bad :: files₂)).1
        = (addReturnsRun fs (files₁ ++ files₂)).1
      ∧ (addReturnsRun fs (files₁ ++ bad :: files₂)).2
          = (addReturnsRun fs files₁).2
            ++ RLog.err bad :: (addReturnsRun (addReturnsRun fs files₁).1 files₂).2
      ∧ (addReturnsMain fs (files₁ ++ bad :: files₂)).2 = 0 := by
  have hmiss : ((addReturnsRun fs files₁).1).lookup bad = none :=
    addReturnsRun_preserves_missing files₁ fs bad h
  have hbadstep :
      addReturnsProcess (addReturnsRun fs files₁).1 bad
        = ((addReturnsRun fs files₁).1, RLog.err bad) := by
    simp [addReturnsProcess, hmiss]
  constructor
  · rw [addReturnsRun_append files₁ (bad :: files₂) fs,
      addReturnsRun_append files₁ files₂ fs]
    simp [addReturnsRun, hbadstep]
  constructor
  · rw [addReturnsRun_append files₁ (bad :: files₂) fs]
    simp [addReturnsRun, hbadstep]
  · rfl

/-- Witness for `per_file_isolation` on a concrete filesystem with one real
file, a missing path in the middle, and another real file after it. -/
theorem per_file_isolation_witness :
    (addReturnsRun [("a", [strL "  res.json(d);\n"])] (["a"] ++ "b" :: ["c"])).1
        = (addReturnsRun [("a", [strL "  res.json(d);\n"])] (["a"] ++ ["c"])).1
      ∧ (addReturnsRun [("a", [strL "  res.json(d);\n"])] (["a"] ++ "b" :: ["c"])).2
          = (addReturnsRun [("a", [strL "  res.json(d);\n"])] ["a"]).2
            ++ RLog.err "b"
              :: (addReturnsRun
                    (addReturnsRun [("a", [strL "  res.json(d);\n"])] ["a"]).1 ["c"]).2
      ∧ (addReturnsMain [("a", [strL "  res.json(d);\n"])] (["a"] ++ "b" :: ["c"])).2 = 0 :=
  per_file_isolation [("a", [strL "  res.json(d);\n"])] ["a"] ["c"] "b" (by decide)

end Hms
